import Mathlib

/-!
# Verification of the `vm-sim` page-replacement simulator

A shallow embedding of the trace-driven virtual-memory simulation core
(`src/sim/mod.rs` and `src/sim/evictors.rs`): address parsing, the
memory/page-table data model, the per-event transition of `Sim::next`, and the
three eviction policies.  Panics in the Rust source are modelled as `none`;
the wall clock (`now()`) and the randomness source are modelled as ambient
streams `clock rng : Nat → Nat` consumed by explicit position counters.
-/

namespace VmSim

/-- Read/write kind of one trace event (`enum Op` in the source). -/
inductive Op
  | R
  | W
deriving DecidableEq

/-- One decoded trace line (`struct Operation`). -/
structure Operation where
  virtual_address : Nat
  virtual_page_number : Nat
  page_offset : Nat
  op : Op
deriving DecidableEq

/-- Splitting a character list on a separator character; models Rust
`str::split(' ')` applied to one line (which yields `[""]` on the empty
string and keeps empty fields between adjacent separators). -/
def splitChar (sep : Char) : List Char → List (List Char)
  | [] => [[]]
  | c :: cs =>
    match splitChar sep cs with
    | [] => [[]]
    | h :: t => if c = sep then [] :: h :: t else (c :: h) :: t

/-- Value of a single hexadecimal digit, exactly the digits accepted by
`char::to_digit(16)` in Rust: `0-9`, `a-f`, `A-F`. -/
def hexDigitValue (c : Char) : Option Nat :=
  if '0' ≤ c ∧ c ≤ '9' then some (c.toNat - '0'.toNat)
  else if 'a' ≤ c ∧ c ≤ 'f' then some (c.toNat - 'a'.toNat + 10)
  else if 'A' ≤ c ∧ c ≤ 'F' then some (c.toNat - 'A'.toNat + 10)
  else none

/-- Model of Rust `u32::from_str_radix(s, 16)`: an optional leading `+`
followed by at least one hexadecimal digit, rejecting any other character
and any value outside the `u32` range. -/
def from_str_radix_16 (cs : List Char) : Option Nat :=
  let digits := match cs with
    | '+' :: rest => rest
    | _ => cs
  match digits with
  | [] => none
  | _ :: _ =>
    match digits.foldl
        (fun acc c => acc.bind fun v => (hexDigitValue c).map fun d => 16 * v + d)
        (some 0) with
    | none => none
    | some v => if v < 2 ^ 32 then some v else none

/-- Model of `Operation::parse_line`: split the line on single spaces, parse
field 0 as a hexadecimal `u32`, derive page number (high 20 bits) and offset
(low 12 bits), and decode field 1 as `R` or `W`.  Every panic of the source
(missing field, bad hex, unknown op code) is `none`. -/
def Operation.parse_line (line : String) : Option Operation :=
  let values := splitChar ' ' line.data
  match values[0]? with
  | none => none
  | some address_str =>
    match from_str_radix_16 address_str with
    | none => none
    | some virtual_address =>
      match values[1]? with
      | none => none
      | some opstr =>
        match (if opstr = ['R'] then some Op.R
               else if opstr = ['W'] then some Op.W
               else none) with
        | none => none
        | some op =>
          some { virtual_address := virtual_address,
                 virtual_page_number := virtual_address >>> 12,
                 page_offset := virtual_address &&& 0xFFF,
                 op := op }

/-- Cumulative statistics snapshot (`struct SimState`). -/
structure SimState where
  total_events : Nat
  read_count : Nat
  write_count : Nat
deriving DecidableEq

/-- Per-page metadata (`struct PageTableEntry`); timestamps are the values
returned by the ambient clock at the `now()` calls. -/
structure PageTableEntry where
  is_dirty : Bool
  created_at : Nat
  last_referenced : Nat
deriving DecidableEq

/-- `PageTableEntry::new` makes two successive `now()` calls, one for
`created_at` and one for `last_referenced`. -/
def PageTableEntry.new (t1 t2 : Nat) : PageTableEntry :=
  { is_dirty := false, created_at := t1, last_referenced := t2 }

/-- `PageTableEntry::reference`: update `last_referenced` with a fresh
`now()` reading. -/
def PageTableEntry.reference (e : PageTableEntry) (t : Nat) : PageTableEntry :=
  { e with last_referenced := t }

/-- Physical memory: a fixed-length vector of slots (`Vec<Option<u32>>`). -/
abbrev Memory := List (Option Nat)

/-- The page table (`HashMap<u32, PageTableEntry>`), modelled as a partial
map from virtual page numbers to entries. -/
abbrev PageTable := Nat → Option PageTableEntry

/-- `HashMap::new`. -/
def PageTable.empty : PageTable := fun _ => none

/-- `HashMap::insert`. -/
def PageTable.insert (pt : PageTable) (k : Nat) (v : PageTableEntry) : PageTable :=
  fun q => if q = k then some v else pt q

/-- `HashMap::remove`. -/
def PageTable.remove (pt : PageTable) (k : Nat) : PageTable :=
  fun q => if q = k then none else pt q

/-- `HashMap::contains_key`. -/
def PageTable.contains_key (pt : PageTable) (k : Nat) : Bool :=
  (pt k).isSome

/-- `get_first_empty_index`: index of the first empty slot, if any. -/
def get_first_empty_index (memory : Memory) : Option Nat :=
  memory.findIdx? fun el => el.isNone

/-- `evict_random`: `rand::thread_rng().gen_range(0, memory.len())`, with the
ambient random value `r` reduced into range; panics (`none`) on an empty
range. -/
def evict_random (r : Nat) (memory : Memory) : Option Nat :=
  if memory.length = 0 then none else some (r % memory.length)

/-- `memory_to_pages`: pair every occupied slot index with the page-table
entry of its resident page, dropping slots that are empty or whose resident
page has no entry. -/
def memory_to_pages (memory : Memory) (page_table : PageTable) :
    List (Nat × PageTableEntry) :=
  memory.enum.filterMap fun ip =>
    ip.2.bind fun p => (page_table p).map fun page => (ip.1, page)

/-- Stable insertion into an already sorted list. -/
def insertSorted (le : α → α → Bool) (a : α) : List α → List α
  | [] => [a]
  | b :: bs => if le a b then a :: b :: bs else b :: insertSorted le a bs

/-- Stable sort by a boolean comparator: Rust's `slice::sort_by` is a stable
sort, whose output (sorted, and with ties kept in input order) is produced
here by stable insertion sort. -/
def sort_by (le : α → α → Bool) : List α → List α
  | [] => []
  | a :: l => insertSorted le a (sort_by le l)

/-- `evict_least_recent`: stable-sort the candidates by `last_referenced`
and take the slot index of the first; `none` models the `unwrap` panic on an
empty candidate list. -/
def evict_least_recent (memory : Memory) (page_table : PageTable) : Option Nat :=
  ((sort_by (fun a b => decide (a.2.last_referenced ≤ b.2.last_referenced))
      (memory_to_pages memory page_table)).head?).map Prod.fst

/-- `evict_fifo`: stable-sort the candidates by `created_at` and take the
slot index of the first. -/
def evict_fifo (memory : Memory) (page_table : PageTable) : Option Nat :=
  ((sort_by (fun a b => decide (a.2.created_at ≤ b.2.created_at))
      (memory_to_pages memory page_table)).head?).map Prod.fst

/-- `evict`: an empty slot always wins; otherwise dispatch on the policy
name, panicking (`none`) on an unknown name. -/
def evict (name : String) (r : Nat) (memory : Memory) (page_table : PageTable) :
    Option Nat :=
  match get_first_empty_index memory with
  | some n => some n
  | none =>
    if name = "random" then evict_random r memory
    else if name = "lru" then evict_least_recent memory page_table
    else if name = "fifo" then evict_fifo memory page_table
    else none

/-- The simulator state (`struct Sim` without the trace handle and debug
flag, which are I/O).  `tick` counts the `now()` calls made so far, so the
timestamp of the k-th call is `clock k`. -/
structure Sim where
  algorithm : String
  state : SimState
  memory : Memory
  page_table : PageTable
  tick : Nat

/-- `Sim::new`: memory of `n_pages` empty slots, empty page table, zeroed
counters. -/
def Sim.new (n_pages : Nat) (algorithm : String) : Sim :=
  { algorithm := algorithm,
    state := ⟨0, 0, 0⟩,
    memory := List.replicate n_pages none,
    page_table := PageTable.empty,
    tick := 0 }

/-- The "create page table entry if it does not exist" step of `Sim::next`:
the page table and clock position after it.  Creating an entry consumes two
clock readings (`created_at`, then `last_referenced`). -/
def Sim.create_entry (clock : Nat → Nat) (sim : Sim) (vpn : Nat) :
    PageTable × Nat :=
  if sim.page_table.contains_key vpn then (sim.page_table, sim.tick)
  else (sim.page_table.insert vpn
          (PageTableEntry.new (clock sim.tick) (clock (sim.tick + 1))),
        sim.tick + 2)

/-- The "load from disk if not loaded" block of `Sim::next`: when the page
is already resident nothing changes; otherwise pick a victim via `evict`,
write back (and drop the entry of) a dirty victim page, count the load, and
place the page into the victim slot.  `state1` is the running `SimState`
copy (with `total_events` already bumped), `pt1` the page table after entry
creation, `r` the ambient random value for this event. -/
def Sim.load_page (sim : Sim) (state1 : SimState) (pt1 : PageTable) (r : Nat)
    (vpn : Nat) : Option (SimState × Memory × PageTable) :=
  if sim.memory.contains (some vpn) then
    some (state1, sim.memory, pt1)
  else
    match evict sim.algorithm r sim.memory pt1 with
    | none => none
    | some idx =>
      match sim.memory[idx]? with
      | none => none
      | some slot =>
        let saved : SimState × PageTable :=
          match slot with
          | none => (state1, pt1)
          | some p =>
            match pt1 p with
            | none => (state1, pt1)
            | some evicted_page =>
              if evicted_page.is_dirty then
                ({ state1 with write_count := state1.write_count + 1 },
                 pt1.remove p)
              else (state1, pt1)
        some ({ saved.1 with read_count := saved.1.read_count + 1 },
              sim.memory.set idx (some vpn),
              saved.2)

/-- One step of the `Iterator for Sim` implementation (`Sim::next`), given
the next raw trace line.  `none` models any panic (parse failure, eviction
failure); the emitted `SimState` is the `state` of the returned `Sim`. -/
def Sim.next (clock rng : Nat → Nat) (line : String) (sim : Sim) : Option Sim :=
  match Operation.parse_line line with
  | none => none
  | some op =>
    let state1 : SimState :=
      { sim.state with total_events := sim.state.total_events + 1 }
    let created := sim.create_entry clock op.virtual_page_number
    match sim.load_page state1 created.1 (rng sim.state.total_events)
        op.virtual_page_number with
    | none => none
    | some s =>
      match s.2.2 op.virtual_page_number with
      | none => none
      | some entry =>
        let entry1 := entry.reference (clock created.2)
        let entry2 :=
          match op.op with
          | Op.W => { entry1 with is_dirty := true }
          | Op.R => entry1
        some { sim with
               state := s.1,
               memory := s.2.1,
               page_table := (s.2.2).insert op.virtual_page_number entry2,
               tick := created.2 + 1 }

/-- Draining the iterator over a list of trace lines (as the external
drivers do via `last()` / the `for` loop); `none` as soon as a step panics. -/
def Sim.run (clock rng : Nat → Nat) : List String → Sim → Option Sim
  | [], sim => some sim
  | line :: rest, sim =>
    match sim.next clock rng line with
    | none => none
    | some sim1 => Sim.run clock rng rest sim1

/-- The virtual page number referenced by one trace line, when it parses. -/
def lineVpn (line : String) : Option Nat :=
  (Operation.parse_line line).map Operation.virtual_page_number

/-- All virtual page numbers referenced by the parseable lines of a trace. -/
def tracePages (lines : List String) : List Nat :=
  lines.filterMap lineVpn

/-- The resident pages of a memory, in slot order. -/
def memPages (memory : Memory) : List Nat :=
  memory.filterMap id

/-! ## Parsing lemmas -/

/-- A successfully parsed hexadecimal `u32` is below `2 ^ 32`. -/
lemma from_str_radix_16_lt {cs : List Char} {v : Nat}
    (h : from_str_radix_16 cs = some v) : v < 2 ^ 32 := by
  simp only [from_str_radix_16] at h
  split at h
  · exact absurd h (by simp)
  · split at h
    · exact absurd h (by simp)
    · split at h
      · injection h with h
        omega
      · exact absurd h (by simp)

/-- Structure of a successfully parsed line: the derived fields of the
`Operation` and the `u32` range of the address. -/
lemma parse_line_some {line : String} {op : Operation}
    (h : Operation.parse_line line = some op) :
    op.virtual_page_number = op.virtual_address >>> 12 ∧
    op.page_offset = op.virtual_address &&& 4095 ∧
    op.virtual_address < 2 ^ 32 := by
  simp only [Operation.parse_line] at h
  split at h
  · exact absurd h (by simp)
  next address_str _ =>
    split at h
    · exact absurd h (by simp)
    next va hva =>
      split at h
      · exact absurd h (by simp)
      · split at h
        · exact absurd h (by simp)
        · injection h with h
          subst h
          exact ⟨rfl, rfl, from_str_radix_16_lt hva⟩

/-- Recombining the high 20 bits and the low 12 bits restores the address. -/
lemma shiftRight_shiftLeft_or_and (va : Nat) :
    (va >>> 12) <<< 12 ||| (va &&& 4095) = va := by
  apply Nat.eq_of_testBit_eq
  intro i
  have h4095 : (4095 : Nat) = 2 ^ 12 - 1 := by norm_num
  simp only [Nat.testBit_or, Nat.testBit_shiftLeft, Nat.testBit_shiftRight, Nat.testBit_and,
    h4095, Nat.testBit_two_pow_sub_one]
  by_cases hi : 12 ≤ i
  · have h12 : 12 + (i - 12) = i := by omega
    simp [hi, h12, Nat.not_lt.mpr hi]
  · simp [hi, Nat.lt_of_not_le hi]

/-- C6: for every parsed `Operation`, `virtual_page_number <<< 12 |||
page_offset = virtual_address`, the offset lies in `[0, 4096)` and the page
number lies in `[0, 2 ^ 20)`. -/
theorem parse_line_round_trip (line : String) (op : Operation)
    (h : Operation.parse_line line = some op) :
    op.virtual_page_number <<< 12 ||| op.page_offset = op.virtual_address ∧
    op.page_offset < 4096 ∧ op.virtual_page_number < 2 ^ 20 := by
  obtain ⟨hv, ho, hlt⟩ := parse_line_some h
  refine ⟨?_, ?_, ?_⟩
  · rw [hv, ho]
    exact shiftRight_shiftLeft_or_and op.virtual_address
  · rw [ho]
    have := Nat.and_le_right (n := op.virtual_address) (m := 4095)
    omega
  · rw [hv, Nat.shiftRight_eq_div_pow]
    have h1 : (2 : Nat) ^ 12 = 4096 := by norm_num
    have h2 : (2 : Nat) ^ 20 = 1048576 := by norm_num
    have h3 : (2 : Nat) ^ 32 = 4294967296 := by norm_num
    rw [h1, h2]
    rw [h3] at hlt
    omega

/-- Witness for C6 at the line `"1000 R"`. -/
theorem parse_line_round_trip_witness :
    Operation.parse_line "1000 R" = some ⟨4096, 1, 0, Op.R⟩ ∧
    ((1 : Nat) <<< 12 ||| 0 = 4096 ∧ (0 : Nat) < 4096 ∧ (1 : Nat) < 2 ^ 20) :=
  ⟨by decide, parse_line_round_trip "1000 R" ⟨4096, 1, 0, Op.R⟩ (by decide)⟩

/-- C7 counterexample: the line `"0 R X"` deviates from the exact two-field
format by an extra trailing field, yet the parser accepts it (the source only
reads fields 0 and 1 and ignores the rest), so the claim that every such
deviation is rejected is false. -/
theorem parse_line_extra_field_accepted :
    (Operation.parse_line "0 R X").isSome = true := by decide

/-- C7 (amended): the parser succeeds exactly when the line splits on single
spaces into at least two fields, the first field is a valid hexadecimal
`u32`, and the second field is `R` or `W`; fields beyond the second are
ignored rather than rejected, and no partial result is ever produced. -/
theorem parse_line_isSome_iff (line : String) :
    (Operation.parse_line line).isSome = true ↔
      ∃ a o rest, splitChar ' ' line.data = a :: o :: rest ∧
        (from_str_radix_16 a).isSome = true ∧ (o = ['R'] ∨ o = ['W']) := by
  simp only [Operation.parse_line]
  cases hvs : splitChar ' ' line.data with
  | nil => simp
  | cons a t =>
    cases t with
    | nil =>
      simp only [List.getElem?_cons_zero]
      cases hfa : from_str_radix_16 a <;> simp
    | cons o rest =>
      simp only [List.getElem?_cons_zero, List.getElem?_cons_succ]
      cases hfa : from_str_radix_16 a with
      | none =>
        simp only [Option.isSome_none, Bool.false_eq_true, false_iff]
        rintro ⟨a', o', rest', h1, h2, h3⟩
        obtain ⟨rfl, rfl, rfl⟩ : a = a' ∧ o = o' ∧ rest = rest' := by
          injection h1 with h1a h1b
          injection h1b with h1c h1d
          exact ⟨h1a, h1c, h1d⟩
        rw [hfa] at h2
        exact absurd h2 (by simp)
      | some va =>
        by_cases hR : o = ['R']
        · subst hR
          simp only [if_pos rfl]
          exact iff_of_true rfl ⟨a, ['R'], rest, rfl, by simp [hfa], Or.inl rfl⟩
        · by_cases hW : o = ['W']
          · subst hW
            simp only [if_neg hR, if_pos rfl]
            exact iff_of_true rfl ⟨a, ['W'], rest, rfl, by simp [hfa], Or.inr rfl⟩
          · simp only [hR, hW, if_false, Option.isSome_none, Bool.false_eq_true, false_iff]
            rintro ⟨a', o', rest', h1, h2, h3⟩
            obtain ⟨rfl, rfl, rfl⟩ : a = a' ∧ o = o' ∧ rest = rest' := by
              injection h1 with h1a h1b
              injection h1b with h1c h1d
              exact ⟨h1a, h1c, h1d⟩
            rcases h3 with h3 | h3 <;> [exact hR h3; exact hW h3]

/-- C8: when the next trace line is malformed, the per-event step of the
engine fails outright — `Sim::next` panics before `self.state` is ever
reassigned, so no counter of the cumulative `SimState` is advanced and the
remainder of the run is aborted. -/
theorem next_malformed_aborts (clock rng : Nat → Nat) (line : String)
    (sim : Sim) (rest : List String)
    (h : Operation.parse_line line = none) :
    Sim.next clock rng line sim = none ∧
    Sim.run clock rng (line :: rest) sim = none := by
  have h1 : Sim.next clock rng line sim = none := by
    simp only [Sim.next, h]
  exact ⟨h1, by simp only [Sim.run, h1]⟩

/-- Witness for C8 at the malformed line `"zz R"`. -/
theorem next_malformed_aborts_witness :
    Operation.parse_line "zz R" = none ∧
    (Sim.next (fun t => t) (fun _ => 0) "zz R" (Sim.new 1 "lru") = none ∧
     Sim.run (fun t => t) (fun _ => 0) ["zz R"] (Sim.new 1 "lru") = none) :=
  ⟨by decide,
   next_malformed_aborts (fun t => t) (fun _ => 0) "zz R" (Sim.new 1 "lru") []
     (by decide)⟩

/-- C2: whenever some slot of memory is empty, `evict` returns the index of
the first empty slot in slot order, for every policy name (in particular for
`random`, `lru` and `fifo`); the policy dispatch is reached only when no
slot is empty. -/
theorem evict_first_empty (name : String) (r : Nat) (memory : Memory)
    (page_table : PageTable) (h : none ∈ memory) :
    ∃ i, get_first_empty_index memory = some i ∧
      evict name r memory page_table = some i ∧
      memory[i]? = some none ∧
      ∀ j, j < i → memory[j]? ≠ some none := by
  have hsome : (memory.findIdx? fun el => el.isNone).isSome := by
    rw [List.findIdx?_isSome]
    exact List.any_eq_true.mpr ⟨none, h, rfl⟩
  obtain ⟨i, hi⟩ := Option.isSome_iff_exists.mp hsome
  obtain ⟨hlen, hpi, hprev⟩ := List.findIdx?_eq_some_iff_getElem.mp hi
  refine ⟨i, hi, ?_, ?_, ?_⟩
  · simp only [evict, get_first_empty_index, hi]
  · have hnone : memory[i] = none := Option.isNone_iff_eq_none.mp hpi
    rw [List.getElem?_eq_getElem hlen, hnone]
  · intro j hj hcontra
    have hjlen : j < memory.length := Nat.lt_trans hj hlen
    have hnp := hprev j hj
    rw [List.getElem?_eq_getElem hjlen] at hcontra
    injection hcontra with hc
    rw [hc] at hnp
    exact hnp rfl

/-- Witness for C2 on the memory `[some 3, none]` under the fifo policy. -/
theorem evict_first_empty_witness :
    none ∈ ([some 3, none] : Memory) ∧
    (∃ i, get_first_empty_index [some 3, none] = some i ∧
      evict "fifo" 0 [some 3, none] PageTable.empty = some i ∧
      ([some 3, none] : Memory)[i]? = some none ∧
      ∀ j, j < i → ([some 3, none] : Memory)[j]? ≠ some none) :=
  ⟨by decide, evict_first_empty "fifo" 0 [some 3, none] PageTable.empty (by decide)⟩

/-- C5: the trace `"0 W"`, `"1000 R"`, `"0 R"` with memory size 1 under
fifo or lru — for every clock and randomness stream — terminates with
`total_events = 3`, `read_count = 3`, `write_count = 1`: page 0 is loaded
and dirtied, page `0x1000` faults and evicts dirty page 0 (one write-back),
and re-accessing page 0 faults again. -/
theorem run_three_line_trace (clock rng : Nat → Nat) :
    (Sim.run clock rng ["0 W", "1000 R", "0 R"] (Sim.new 1 "fifo")).map Sim.state
        = some ⟨3, 3, 1⟩ ∧
    (Sim.run clock rng ["0 W", "1000 R", "0 R"] (Sim.new 1 "lru")).map Sim.state
        = some ⟨3, 3, 1⟩ :=
  ⟨rfl, rfl⟩

/-! ## Per-step structure of the engine -/

/-- Counter bookkeeping of the load block: `total_events` is untouched,
`read_count` grows by at most one, `write_count` grows by at most one and
only together with `read_count`. -/
lemma load_page_state {sim : Sim} {state1 : SimState} {pt1 : PageTable}
    {r vpn : Nat} {s : SimState × Memory × PageTable}
    (h : sim.load_page state1 pt1 r vpn = some s) :
    s.1.total_events = state1.total_events ∧
    (s.1.read_count = state1.read_count ∨
      s.1.read_count = state1.read_count + 1) ∧
    (s.1.write_count = state1.write_count ∨
      s.1.write_count = state1.write_count + 1) ∧
    (s.1.write_count = state1.write_count + 1 →
      s.1.read_count = state1.read_count + 1) := by
  simp only [Sim.load_page] at h
  split at h
  · injection h with h
    subst h
    refine ⟨rfl, Or.inl rfl, Or.inl rfl, fun hc => absurd hc ?_⟩
    change ¬(state1.write_count = state1.write_count + 1)
    omega
  · split at h
    · exact absurd h (by simp)
    · split at h
      · exact absurd h (by simp)
      next slot _ =>
        injection h with h
        subst h
        rcases slot with _ | p
        · exact ⟨rfl, Or.inr rfl, Or.inl rfl, fun _ => rfl⟩
        · cases hpe : pt1 p with
          | none => simp [hpe]
          | some e =>
            by_cases hd : e.is_dirty = true
            · simp [hpe, hd]
            · simp [hpe, hd]

/-- A successful `Sim::next` keeps the policy name and advances the counters
as the source does: `total_events` by exactly one, `read_count` and
`write_count` by at most one, a write-back only alongside a serviced load. -/
lemma next_some_shape {clock rng : Nat → Nat} {line : String} {sim sim' : Sim}
    (h : Sim.next clock rng line sim = some sim') :
    sim'.algorithm = sim.algorithm ∧
    sim'.state.total_events = sim.state.total_events + 1 ∧
    (sim'.state.read_count = sim.state.read_count ∨
      sim'.state.read_count = sim.state.read_count + 1) ∧
    (sim'.state.write_count = sim.state.write_count ∨
      sim'.state.write_count = sim.state.write_count + 1) ∧
    (sim'.state.write_count = sim.state.write_count + 1 →
      sim'.state.read_count = sim.state.read_count + 1) := by
  simp only [Sim.next] at h
  split at h
  · exact absurd h (by simp)
  · split at h
    · exact absurd h (by simp)
    next s hload =>
      split at h
      · exact absurd h (by simp)
      · injection h with h
        subst h
        obtain ⟨hte, hrc, hwc, himp⟩ := load_page_state hload
        exact ⟨rfl, hte, hrc, hwc, himp⟩

/-- The value of the randomness source is irrelevant to `evict` under the
deterministic policies. -/
lemma evict_rng_irrelevant (name : String) (r r' : Nat) (m : Memory)
    (pt : PageTable) (h : name = "lru" ∨ name = "fifo") :
    evict name r m pt = evict name r' m pt := by
  unfold evict
  cases hfe : get_first_empty_index m
  · rcases h with h | h <;> subst h <;> rfl
  · rfl

/-- The value of the randomness source is irrelevant to the load block under
the deterministic policies. -/
lemma load_page_rng_irrelevant (sim : Sim) (state1 : SimState) (pt1 : PageTable)
    (r r' vpn : Nat) (h : sim.algorithm = "lru" ∨ sim.algorithm = "fifo") :
    sim.load_page state1 pt1 r vpn = sim.load_page state1 pt1 r' vpn := by
  simp only [Sim.load_page]
  rw [evict_rng_irrelevant sim.algorithm r r' sim.memory pt1 h]

/-- The randomness stream is irrelevant to a whole step under the
deterministic policies. -/
lemma next_rng_irrelevant (clock rng1 rng2 : Nat → Nat) (line : String) (sim : Sim)
    (h : sim.algorithm = "lru" ∨ sim.algorithm = "fifo") :
    Sim.next clock rng1 line sim = Sim.next clock rng2 line sim := by
  have key : ∀ (st1 : SimState) (pt1 : PageTable) (vpn : Nat),
      sim.load_page st1 pt1 (rng1 sim.state.total_events) vpn =
      sim.load_page st1 pt1 (rng2 sim.state.total_events) vpn :=
    fun st1 pt1 vpn => load_page_rng_irrelevant sim st1 pt1 _ _ vpn h
  unfold Sim.next
  cases hop : Operation.parse_line line with
  | none => rfl
  | some op => simp only [key]

/-- The randomness stream is irrelevant to a whole run under the
deterministic policies. -/
lemma run_rng_irrelevant (clock rng1 rng2 : Nat → Nat) :
    ∀ (lines : List String) (sim : Sim),
      sim.algorithm = "lru" ∨ sim.algorithm = "fifo" →
      Sim.run clock rng1 lines sim = Sim.run clock rng2 lines sim
  | [], _, _ => rfl
  | line :: rest, sim, h => by
    simp only [Sim.run]
    rw [← next_rng_irrelevant clock rng1 rng2 line sim h]
    cases hn : Sim.next clock rng1 line sim
    · rfl
    next sim1 =>
      have halg := (next_some_shape hn).1
      exact run_rng_irrelevant clock rng1 rng2 rest sim1 (by rw [halg]; exact h)

/-- C9 counterexample: under the lru policy the final `SimState` is not
a function of the trace and memory size alone — it also depends on the
wall-clock readings the run observes.  On the trace
`"0 R"`, `"1000 R"`, `"0 R"`, `"2000 R"`, `"1000 R"` with memory size 2, a
run whose clock readings strictly increase ends with `read_count = 4`,
while a run whose readings all coincide (same-tick collisions) ends with
`read_count = 3`, so "two runs always yield identical final SimState" fails
as stated. -/
theorem lru_run_clock_dependent :
    (Sim.run (fun t => t) (fun _ => 0) ["0 R", "1000 R", "0 R", "2000 R", "1000 R"]
        (Sim.new 2 "lru")).map Sim.state ≠
    (Sim.run (fun _ => 0) (fun _ => 0) ["0 R", "1000 R", "0 R", "2000 R", "1000 R"]
        (Sim.new 2 "lru")).map Sim.state := by decide

/-- C9 (amended): for the fifo and lru policies, two runs of the engine over
the same trace with the same memory size that observe the same sequence of
clock readings always yield identical results — in particular the outcome
never depends on the randomness source, which is consulted only by the
random policy.  (Runs observing different clock sequences can differ, see
the counterexample.) -/
theorem run_deterministic_policies (clock rng1 rng2 : Nat → Nat)
    (lines : List String) (n : Nat) (alg : String)
    (h : alg = "lru" ∨ alg = "fifo") :
    Sim.run clock rng1 lines (Sim.new n alg) =
    Sim.run clock rng2 lines (Sim.new n alg) :=
  run_rng_irrelevant clock rng1 rng2 lines (Sim.new n alg) h

/-- Witness for C9 (amended) on a one-line trace with two distinct
randomness streams. -/
theorem run_deterministic_policies_witness :
    (("lru" : String) = "lru" ∨ ("lru" : String) = "fifo") ∧
    Sim.run (fun t => t) (fun _ => 1) ["0 W"] (Sim.new 1 "lru") =
      Sim.run (fun t => t) (fun _ => 2) ["0 W"] (Sim.new 1 "lru") :=
  ⟨Or.inl rfl,
   run_deterministic_policies (fun t => t) (fun _ => 1) (fun _ => 2) ["0 W"] 1
     "lru" (Or.inl rfl)⟩

/-- Preservation of the counter chain `write_count ≤ read_count ≤
total_events` along a run. -/
lemma run_counters_le (clock rng : Nat → Nat) :
    ∀ (lines : List String) (sim sim' : Sim),
      sim.state.write_count ≤ sim.state.read_count →
      sim.state.read_count ≤ sim.state.total_events →
      Sim.run clock rng lines sim = some sim' →
      sim'.state.write_count ≤ sim'.state.read_count ∧
      sim'.state.read_count ≤ sim'.state.total_events
  | [], sim, sim', h1, h2, hrun => by
    simp only [Sim.run] at hrun
    injection hrun with hrun
    subst hrun
    exact ⟨h1, h2⟩
  | line :: rest, sim, sim', h1, h2, hrun => by
    simp only [Sim.run] at hrun
    cases hn : Sim.next clock rng line sim with
    | none => rw [hn] at hrun; exact Option.noConfusion hrun
    | some sim1 =>
      rw [hn] at hrun
      obtain ⟨-, hte, hrc, hwc, himp⟩ := next_some_shape hn
      have hwr : sim1.state.write_count ≤ sim1.state.read_count := by
        rcases hwc with hwc | hwc
        · rcases hrc with hrc | hrc <;> omega
        · have := himp hwc
          omega
      have hrt : sim1.state.read_count ≤ sim1.state.total_events := by
        rcases hrc with hrc | hrc <;> omega
      exact run_counters_le clock rng rest sim1 sim' hwr hrt hrun

/-- C10: each successful per-event transition increases `total_events` by
exactly 1, `read_count` by at most 1 and `write_count` by at most 1, with a
`write_count` increase only in an event that also increases `read_count`;
consequently every `SimState` emitted by a run of the engine satisfies
`write_count ≤ read_count ≤ total_events`. -/
theorem sim_counter_invariants (clock rng : Nat → Nat) :
    (∀ (line : String) (sim sim' : Sim),
      Sim.next clock rng line sim = some sim' →
      sim'.state.total_events = sim.state.total_events + 1 ∧
      (sim'.state.read_count = sim.state.read_count ∨
        sim'.state.read_count = sim.state.read_count + 1) ∧
      (sim'.state.write_count = sim.state.write_count ∨
        sim'.state.write_count = sim.state.write_count + 1) ∧
      (sim'.state.write_count = sim.state.write_count + 1 →
        sim'.state.read_count = sim.state.read_count + 1)) ∧
    (∀ (n : Nat) (alg : String) (lines : List String) (k : Nat) (sim' : Sim),
      Sim.run clock rng (lines.take k) (Sim.new n alg) = some sim' →
      sim'.state.write_count ≤ sim'.state.read_count ∧
      sim'.state.read_count ≤ sim'.state.total_events) :=
  ⟨fun _ _ _ h => (next_some_shape h).2,
   fun n alg lines k sim' h =>
     run_counters_le clock rng (lines.take k) (Sim.new n alg) sim'
       (Nat.le_refl 0) (Nat.le_refl 0) h⟩

/-- Witness for C10: one write event from a fresh simulator, and a one-event
run, at concrete inputs. -/
theorem sim_counter_invariants_witness :
    (Sim.next (fun t => t) (fun _ => 0) "0 W" (Sim.new 1 "lru") =
      some ((Sim.next (fun t => t) (fun _ => 0) "0 W" (Sim.new 1 "lru")).getD
        (Sim.new 1 "lru")) ∧
     ((Sim.next (fun t => t) (fun _ => 0) "0 W" (Sim.new 1 "lru")).getD
        (Sim.new 1 "lru")).state.total_events =
      (Sim.new 1 "lru").state.total_events + 1) ∧
    (Sim.run (fun t => t) (fun _ => 0) (["0 W"].take 1) (Sim.new 1 "lru") =
      some ((Sim.run (fun t => t) (fun _ => 0) (["0 W"].take 1)
        (Sim.new 1 "lru")).getD (Sim.new 1 "lru")) ∧
     ((Sim.run (fun t => t) (fun _ => 0) (["0 W"].take 1)
        (Sim.new 1 "lru")).getD (Sim.new 1 "lru")).state.write_count ≤
      ((Sim.run (fun t => t) (fun _ => 0) (["0 W"].take 1)
        (Sim.new 1 "lru")).getD (Sim.new 1 "lru")).state.read_count) :=
  ⟨⟨rfl,
    (((sim_counter_invariants (fun t => t) (fun _ => 0)).1 "0 W" (Sim.new 1 "lru")
      _ rfl)).1⟩,
   ⟨rfl,
    (((sim_counter_invariants (fun t => t) (fun _ => 0)).2 1 "lru" ["0 W"] 1
      _ rfl)).1⟩⟩

/-! ## No evictions when memory is large enough -/

/-- Membership in the resident-page list. -/
lemma mem_memPages {m : Memory} {p : Nat} : p ∈ memPages m ↔ some p ∈ m := by
  simp [memPages, List.mem_filterMap]

/-- A memory with no empty slot has as many resident pages as slots. -/
lemma memPages_length_of_full {m : Memory} (h : ∀ x ∈ m, x.isNone = false) :
    (memPages m).length = m.length := by
  induction m with
  | nil => rfl
  | cons a t ih =>
    cases a with
    | none => exact absurd (h none (List.mem_cons_self _ _)) (by simp)
    | some p =>
      have hmp : memPages (some p :: t) = p :: memPages t := rfl
      rw [hmp, List.length_cons, List.length_cons,
        ih fun x hx => h x (List.mem_cons_of_mem _ hx)]

/-- Filling an empty slot adds exactly the new page to the resident pages,
up to permutation. -/
lemma memPages_set_perm {m : Memory} {i v : Nat} (h : m[i]? = some none) :
    (memPages (m.set i (some v))).Perm (v :: memPages m) := by
  induction m generalizing i with
  | nil => simp at h
  | cons a t ih =>
    cases i with
    | zero =>
      simp only [List.getElem?_cons_zero] at h
      injection h with h
      subst h
      exact List.Perm.refl _
    | succ j =>
      simp only [List.getElem?_cons_succ] at h
      cases a with
      | none => exact ih h
      | some p => exact ((ih h).cons p).trans (List.Perm.swap v p _)

/-- The starting memory holds no pages. -/
lemma memPages_replicate (n : Nat) : memPages (List.replicate n none) = [] := by
  induction n with
  | zero => rfl
  | succ k ih => exact ih

/-- Pigeonhole: if the distinct resident pages all come from a set of at most
`m.length` pages that also contains a non-resident page `v`, then some slot
is empty. -/
lemma exists_empty_slot {m : Memory} {R : Finset ℕ} {v : Nat}
    (hnodup : (memPages m).Nodup) (hsub : ∀ p ∈ memPages m, p ∈ R)
    (hcard : R.card ≤ m.length) (hv : v ∈ R) (hvnot : some v ∉ m) :
    ∃ i, get_first_empty_index m = some i := by
  cases hfe : get_first_empty_index m with
  | some i => exact ⟨i, rfl⟩
  | none =>
    exfalso
    have hall : ∀ x ∈ m, x.isNone = false := List.findIdx?_eq_none_iff.mp hfe
    have hlen : (memPages m).length = m.length := memPages_length_of_full hall
    have hsubF : (memPages m).toFinset ⊆ R :=
      fun x hx => hsub x (List.mem_toFinset.mp hx)
    have hvF : v ∉ (memPages m).toFinset := by
      rw [List.mem_toFinset, mem_memPages]
      exact hvnot
    have hss : (memPages m).toFinset ⊂ R :=
      (Finset.ssubset_iff_of_subset hsubF).mpr ⟨v, hv, hvF⟩
    have hcl : (memPages m).toFinset.card < R.card := Finset.card_lt_card hss
    rw [List.toFinset_card_of_nodup hnodup] at hcl
    omega

/-- One step preserves the "no write-backs yet" invariant when every page of
the trace fits: the victim is always an empty slot. -/
lemma next_preserves_inv {clock rng : Nat → Nat} {R : Finset ℕ} {line : String}
    {sim sim' : Sim}
    (hnodup : (memPages sim.memory).Nodup)
    (hsub : ∀ p ∈ memPages sim.memory, p ∈ R)
    (hcard : R.card ≤ sim.memory.length)
    (hwc : sim.state.write_count = 0)
    (hline : ∀ v, lineVpn line = some v → v ∈ R)
    (hnext : Sim.next clock rng line sim = some sim') :
    sim'.memory.length = sim.memory.length ∧
    (memPages sim'.memory).Nodup ∧
    (∀ p ∈ memPages sim'.memory, p ∈ R) ∧
    sim'.state.write_count = 0 := by
  simp only [Sim.next] at hnext
  split at hnext
  · exact Option.noConfusion hnext
  next op hop =>
    have hv : op.virtual_page_number ∈ R := by
      apply hline
      rw [lineVpn, hop]
      rfl
    split at hnext
    · exact Option.noConfusion hnext
    next s hload =>
      split at hnext
      · exact Option.noConfusion hnext
      next entry hentry =>
        injection hnext with hnext
        subst hnext
        simp only [Sim.load_page] at hload
        split at hload
        · injection hload with hload
          subst hload
          exact ⟨rfl, hnodup, hsub, hwc⟩
        next hres =>
          have hvnot : some op.virtual_page_number ∉ sim.memory := by
            intro hmem
            exact hres (List.elem_eq_true_of_mem hmem)
          obtain ⟨i, hfe⟩ := exists_empty_slot hnodup hsub hcard hv hvnot
          obtain ⟨hlen, hpi, -⟩ := List.findIdx?_eq_some_iff_getElem.mp hfe
          have hslotnone : sim.memory[i]? = some none := by
            rw [List.getElem?_eq_getElem hlen, Option.isNone_iff_eq_none.mp hpi]
          have hevict : ∀ ptx : PageTable,
              evict sim.algorithm (rng sim.state.total_events) sim.memory ptx =
                some i := by
            intro ptx
            simp only [evict]
            rw [hfe]
          simp only [hevict, hslotnone] at hload
          injection hload with hload
          subst hload
          refine ⟨List.length_set _ _ _, ?_, ?_, hwc⟩
          · have hperm := memPages_set_perm (v := op.virtual_page_number) hslotnone
            refine hperm.nodup_iff.mpr (List.nodup_cons.mpr ⟨?_, hnodup⟩)
            rw [mem_memPages]
            exact hvnot
          · intro p hp
            have hperm := memPages_set_perm (v := op.virtual_page_number) hslotnone
            rcases List.mem_cons.mp ((hperm.mem_iff).mp hp) with hp1 | hp1
            · exact hp1 ▸ hv
            · exact hsub p hp1

/-- A run preserves the invariant and hence never counts a write-back. -/
lemma run_preserves_inv (clock rng : Nat → Nat) (R : Finset ℕ) :
    ∀ (lines : List String) (sim sim' : Sim),
      (∀ l ∈ lines, ∀ v, lineVpn l = some v → v ∈ R) →
      (memPages sim.memory).Nodup →
      (∀ p ∈ memPages sim.memory, p ∈ R) →
      R.card ≤ sim.memory.length →
      sim.state.write_count = 0 →
      Sim.run clock rng lines sim = some sim' →
      sim'.state.write_count = 0
  | [], sim, sim', _, _, _, _, hwc, hrun => by
    simp only [Sim.run] at hrun
    injection hrun with hrun
    subst hrun
    exact hwc
  | line :: rest, sim, sim', hlines, hnodup, hsub, hcard, hwc, hrun => by
    simp only [Sim.run] at hrun
    cases hn : Sim.next clock rng line sim with
    | none => rw [hn] at hrun; exact Option.noConfusion hrun
    | some sim1 =>
      rw [hn] at hrun
      obtain ⟨hlen1, hnodup1, hsub1, hwc1⟩ :=
        next_preserves_inv hnodup hsub hcard hwc
          (hlines line (List.mem_cons_self _ _)) hn
      exact run_preserves_inv clock rng R rest sim1 sim'
        (fun l hl => hlines l (List.mem_cons_of_mem _ hl)) hnodup1 hsub1
        (hlen1 ▸ hcard) hwc1 hrun

/-- C4: for every trace, policy, clock and randomness stream, if the memory
size is at least the number of distinct virtual page numbers referenced in
the trace, then `write_count = 0` in every emitted `SimState` of the run
(every victim is an empty slot, so no resident page is ever evicted). -/
theorem run_no_writes_when_memory_big (clock rng : Nat → Nat) (alg : String)
    (lines : List String) (n k : Nat) (sim' : Sim)
    (hn : (tracePages lines).toFinset.card ≤ n)
    (hrun : Sim.run clock rng (lines.take k) (Sim.new n alg) = some sim') :
    sim'.state.write_count = 0 := by
  apply run_preserves_inv clock rng (tracePages lines).toFinset (lines.take k)
    (Sim.new n alg) sim' ?_ ?_ ?_ ?_ rfl hrun
  · intro l hl v hv
    exact List.mem_toFinset.mpr
      (List.mem_filterMap.mpr ⟨l, List.mem_of_mem_take hl, hv⟩)
  · rw [show (Sim.new n alg).memory = List.replicate n none from rfl,
      memPages_replicate]
    exact List.nodup_nil
  · rw [show (Sim.new n alg).memory = List.replicate n none from rfl,
      memPages_replicate]
    intro p hp
    exact absurd hp (List.not_mem_nil p)
  · rw [show (Sim.new n alg).memory = List.replicate n none from rfl,
      List.length_replicate]
    exact hn

/-- Witness for C4 on the two-page trace `"0 R"`, `"1000 R"` with memory
size 2. -/
theorem run_no_writes_when_memory_big_witness :
    (tracePages ["0 R", "1000 R"]).toFinset.card ≤ 2 ∧
    ((Sim.run (fun t => t) (fun _ => 0) (["0 R", "1000 R"].take 2)
        (Sim.new 2 "lru")).getD (Sim.new 2 "lru")).state.write_count = 0 :=
  ⟨by decide,
   run_no_writes_when_memory_big (fun t => t) (fun _ => 0) "lru"
     ["0 R", "1000 R"] 2 2 _ (by decide) rfl⟩

/-! ## Dirty and clean victims -/

/-- C1: on a fault, when the victim slot holds a page `p` whose page-table
entry exists, a dirty entry causes `write_count` to increase by exactly one
and the entry for `p` to be removed from the page table, while a clean entry
leaves `write_count` unchanged and the entry for `p` untouched in the page
table (even though `p` is no longer resident). -/
theorem next_fault_victim_entry (clock rng : Nat → Nat) (line : String)
    (sim sim' : Sim) (op : Operation) (idx p : Nat) (e : PageTableEntry)
    (hop : Operation.parse_line line = some op)
    (hfault : sim.memory.contains (some op.virtual_page_number) = false)
    (hevict : evict sim.algorithm (rng sim.state.total_events) sim.memory
        (Sim.create_entry clock sim op.virtual_page_number).1 = some idx)
    (hvictim : sim.memory[idx]? = some (some p))
    (hentry : sim.page_table p = some e)
    (hnext : Sim.next clock rng line sim = some sim') :
    (e.is_dirty = true →
      sim'.state.write_count = sim.state.write_count + 1 ∧
      sim'.page_table p = none) ∧
    (e.is_dirty = false →
      sim'.state.write_count = sim.state.write_count ∧
      sim'.page_table p = some e) := by
  have hpne : p ≠ op.virtual_page_number := by
    intro heq
    obtain ⟨hlt, hgot⟩ := List.getElem?_eq_some.mp hvictim
    have hmem : some p ∈ sim.memory := hgot ▸ List.getElem_mem hlt
    have hcontra : sim.memory.contains (some op.virtual_page_number) = true := by
      rw [← heq]
      exact List.elem_eq_true_of_mem hmem
    rw [hfault] at hcontra
    exact Bool.noConfusion hcontra
  have hpt1p : (Sim.create_entry clock sim op.virtual_page_number).1 p = some e := by
    unfold Sim.create_entry
    split
    · exact hentry
    · simp only [PageTable.insert, if_neg hpne]
      exact hentry
  simp only [Sim.next] at hnext
  split at hnext
  · exact Option.noConfusion hnext
  next op' hop' =>
    rw [hop] at hop'
    injection hop' with hop'
    subst hop'
    split at hnext
    · exact Option.noConfusion hnext
    next s hload =>
      split at hnext
      · exact Option.noConfusion hnext
      next entry hentry2 =>
        injection hnext with hnext
        subst hnext
        simp only [Sim.load_page] at hload
        split at hload
        next hres =>
          rw [hfault] at hres
          exact Bool.noConfusion hres
        next hres =>
          simp only [hevict, hvictim, hpt1p] at hload
          cases hd : e.is_dirty with
          | false =>
            simp only [hd, Bool.false_eq_true, if_false] at hload
            injection hload with hload
            subst hload
            refine ⟨fun hc => Bool.noConfusion hc, fun _ => ⟨rfl, ?_⟩⟩
            simp only [PageTable.insert, if_neg hpne]
            exact hpt1p
          | true =>
            simp only [hd, if_true] at hload
            injection hload with hload
            subst hload
            refine ⟨fun _ => ⟨rfl, ?_⟩, fun hc => Bool.noConfusion hc⟩
            simp [PageTable.insert, PageTable.remove, hpne]

/-- A concrete one-slot simulator holding dirty page 5, used as the C1
witness input. -/
def simC1 : Sim :=
  { algorithm := "lru",
    state := ⟨7, 5, 3⟩,
    memory := [some 5],
    page_table := PageTable.empty.insert 5 ⟨true, 2, 2⟩,
    tick := 4 }

/-- Witness for C1: referencing page 1 (line `"1000 R"`) in `simC1` evicts
dirty page 5, bumping `write_count` and removing page 5 from the table. -/
theorem next_fault_victim_entry_witness :
    Operation.parse_line "1000 R" = some ⟨4096, 1, 0, Op.R⟩ ∧
    simC1.memory.contains (some 1) = false ∧
    simC1.page_table 5 = some ⟨true, 2, 2⟩ ∧
    (((Sim.next (fun t => t) (fun _ => 0) "1000 R" simC1).getD simC1).state.write_count
        = simC1.state.write_count + 1 ∧
     ((Sim.next (fun t => t) (fun _ => 0) "1000 R" simC1).getD simC1).page_table 5
        = none) :=
  ⟨by decide, by decide, by decide,
   (next_fault_victim_entry (fun t => t) (fun _ => 0) "1000 R" simC1 _
      ⟨4096, 1, 0, Op.R⟩ 0 5 ⟨true, 2, 2⟩ (by decide) (by decide) (by decide)
      (by decide) (by decide) rfl).1 rfl⟩

/-! ## Stable-sort characterization of the full-memory lru policy -/

/-- The first element attaining the minimal key, the value a stable sort by
that key places at the head. -/
def firstMinBy (key : α → Nat) : List α → Option α
  | [] => none
  | a :: l =>
    match firstMinBy key l with
    | none => some a
    | some b => if key a ≤ key b then some a else some b

/-- Head of a stable insertion. -/
lemma head?_insertSorted (le : α → α → Bool) (a : α) (l : List α) :
    (insertSorted le a l).head? =
      some (match l with
            | [] => a
            | b :: _ => if le a b then a else b) := by
  cases l with
  | nil => rfl
  | cons b bs =>
    simp only [insertSorted]
    split <;> rfl

/-- The head of the stable sort is the first minimal element. -/
lemma sort_by_head? (key : α → Nat) (l : List α) :
    (sort_by (fun a b => decide (key a ≤ key b)) l).head? = firstMinBy key l := by
  induction l with
  | nil => rfl
  | cons a l ih =>
    simp only [sort_by]
    rw [head?_insertSorted]
    cases hs : sort_by (fun a b => decide (key a ≤ key b)) l with
    | nil =>
      have h0 : firstMinBy key l = none := by rw [← ih, hs]; rfl
      simp only [firstMinBy, h0]
    | cons b bs =>
      have h0 : firstMinBy key l = some b := by rw [← ih, hs]; rfl
      simp only [firstMinBy, h0]
      by_cases h : key a ≤ key b
      · simp [h]
      · simp [h]

/-- The first minimal element splits the list into a strictly-larger prefix,
itself, and a tail it is no larger than. -/
lemma firstMinBy_spec (key : α → Nat) :
    ∀ (l : List α) (x : α), firstMinBy key l = some x →
      ∃ l1 l2, l = l1 ++ x :: l2 ∧ (∀ y ∈ l, key x ≤ key y) ∧
        (∀ y ∈ l1, key x < key y)
  | [], x, h => Option.noConfusion h
  | a :: l, x, h => by
    simp only [firstMinBy] at h
    cases hf : firstMinBy key l with
    | none =>
      rw [hf] at h
      injection h with h
      subst h
      cases l with
      | nil => exact ⟨[], [], rfl, by simp, by simp⟩
      | cons c t =>
        exfalso
        simp only [firstMinBy] at hf
        cases h2 : firstMinBy key t with
        | none => rw [h2] at hf; exact Option.noConfusion hf
        | some d =>
          rw [h2] at hf
          split at hf
          · exact Option.noConfusion hf
          · split at hf <;> exact Option.noConfusion hf
    | some b =>
      rw [hf] at h
      have h' : (if key a ≤ key b then some a else some b) = some x := h
      obtain ⟨l1, l2, hsplit, hmin, hstrict⟩ := firstMinBy_spec key l b hf
      by_cases hab : key a ≤ key b
      · rw [if_pos hab] at h'
        injection h' with h'
        subst h'
        refine ⟨[], l, rfl, ?_, by simp⟩
        intro y hy
        rcases List.mem_cons.mp hy with rfl | hy
        · exact Nat.le_refl _
        · exact Nat.le_trans hab (hmin y hy)
      · rw [if_neg hab] at h'
        injection h' with h'
        subst h'
        refine ⟨a :: l1, l2, by simp [hsplit], ?_, ?_⟩
        · intro y hy
          rcases List.mem_cons.mp hy with rfl | hy
          · exact Nat.le_of_lt (Nat.lt_of_not_le hab)
          · exact hmin y hy
        · intro y hy
          rcases List.mem_cons.mp hy with rfl | hy
          · exact Nat.lt_of_not_le hab
          · exact hstrict y hy

/-- The eviction-candidate entry paired with an enumerated slot determines
its slot index. -/
lemma mtp_fun_fst {pt : PageTable} {ip : Nat × Option Nat}
    {b : Nat × PageTableEntry}
    (hb : (ip.2.bind fun p => (pt p).map fun page => (ip.1, page)) = some b) :
    b.1 = ip.1 := by
  rcases ip with ⟨i, mp⟩
  cases mp with
  | none => exact Option.noConfusion hb
  | some p =>
    simp only [Option.some_bind] at hb
    cases hpt : pt p with
    | none => rw [hpt] at hb; exact Option.noConfusion hb
    | some pg =>
      rw [hpt] at hb
      simp only [Option.map_some'] at hb
      injection hb with hb
      rw [← hb]

/-- Candidate slot indices strictly increase along `memory_to_pages`. -/
lemma memory_to_pages_pairwise (memory : Memory) (pt : PageTable) :
    (memory_to_pages memory pt).Pairwise (fun a b => a.1 < b.1) := by
  apply List.Pairwise.filterMap
  · intro ip iq hlt b hb b' hb'
    rw [Option.mem_def] at hb hb'
    rw [mtp_fun_fst hb, mtp_fun_fst hb']
    exact hlt
  · rw [List.pairwise_iff_getElem]
    intro i j hi hj hij
    have hi' : i < (memory.enumFrom 0).length := hi
    have hj' : j < (memory.enumFrom 0).length := hj
    have e1 := List.getElem_enumFrom memory 0 i hi'
    have e2 := List.getElem_enumFrom memory 0 j hj'
    calc (memory.enum[i]).1 = 0 + i := by rw [show memory.enum[i] = (memory.enumFrom 0)[i] from rfl, e1]
      _ < 0 + j := by omega
      _ = (memory.enum[j]).1 := by rw [show memory.enum[j] = (memory.enumFrom 0)[j] from rfl, e2]

/-- Membership in `memory_to_pages`: the slot is occupied by a page that has
a page-table entry. -/
lemma mem_memory_to_pages {memory : Memory} {pt : PageTable} {i : Nat}
    {e : PageTableEntry} :
    (i, e) ∈ memory_to_pages memory pt ↔
      ∃ p, memory[i]? = some (some p) ∧ pt p = some e := by
  unfold memory_to_pages
  rw [List.mem_filterMap]
  constructor
  · rintro ⟨⟨j, mp⟩, hmem, hf⟩
    have hj : i = j := mtp_fun_fst hf
    subst hj
    cases mp with
    | none => exact Option.noConfusion hf
    | some p =>
      simp only [Option.some_bind] at hf
      cases hpt : pt p with
      | none => rw [hpt] at hf; exact Option.noConfusion hf
      | some pg =>
        rw [hpt] at hf
        simp only [Option.map_some'] at hf
        injection hf with hf
        have hpg : pg = e := congrArg Prod.snd hf
        refine ⟨p, ?_, by rw [hpt, hpg]⟩
        exact List.mk_mem_enum_iff_getElem?.mp hmem
  · rintro ⟨p, hmem, hpt⟩
    refine ⟨(i, some p), List.mk_mem_enum_iff_getElem?.mpr ?_, ?_⟩
    · exact hmem
    · simp only [Option.some_bind, hpt, Option.map_some']

/-- C3: with no empty slot, the lru policy returns an occupied slot whose
resident page has a page-table entry with minimal `last_referenced` among
all candidates (slots whose page lacks an entry are excluded), and on ties
the least slot index wins (stable sort over slot order). -/
theorem evict_lru_full_spec (r : Nat) (memory : Memory) (pt : PageTable)
    (i : Nat)
    (hfull : get_first_empty_index memory = none)
    (hev : evict "lru" r memory pt = some i) :
    ∃ p e, memory[i]? = some (some p) ∧ pt p = some e ∧
      ∀ j f, (j, f) ∈ memory_to_pages memory pt →
        e.last_referenced ≤ f.last_referenced ∧
        (f.last_referenced = e.last_referenced → i ≤ j) := by
  have hev' : evict_least_recent memory pt = some i := by
    simp only [evict, hfull] at hev
    rw [if_pos trivial] at hev
    exact hev
  unfold evict_least_recent at hev'
  rw [sort_by_head? (fun x : Nat × PageTableEntry => x.2.last_referenced)] at hev'
  cases hx : firstMinBy (fun x : Nat × PageTableEntry => x.2.last_referenced)
      (memory_to_pages memory pt) with
  | none => rw [hx] at hev'; exact Option.noConfusion hev'
  | some x =>
    rw [hx] at hev'
    simp only [Option.map_some'] at hev'
    injection hev' with hev'
    obtain ⟨l1, l2, hsplit, hmin, hstrict⟩ := firstMinBy_spec _ _ x hx
    rcases x with ⟨i', e⟩
    simp only at hev'
    subst hev'
    have hmem : (i', e) ∈ memory_to_pages memory pt := by
      rw [hsplit]
      exact List.mem_append_right _ (List.mem_cons_self _ _)
    obtain ⟨p, hp1, hp2⟩ := mem_memory_to_pages.mp hmem
    refine ⟨p, e, hp1, hp2, ?_⟩
    intro j f hjf
    refine ⟨hmin (j, f) hjf, ?_⟩
    intro heq
    by_contra hlt
    push_neg at hlt
    have hpw := memory_to_pages_pairwise memory pt
    rw [hsplit] at hpw hjf
    rcases List.mem_append.mp hjf with hj1 | hj2
    · have hs := hstrict (j, f) hj1
      simp only at hs
      omega
    · rcases List.mem_cons.mp hj2 with hj3 | hj3
      · have : j = i' := congrArg Prod.fst hj3
        omega
      · have hpw2 := (List.pairwise_append.mp hpw).2.1
        have hij := List.rel_of_pairwise_cons hpw2 hj3
        simp only at hij
        omega

/-- Witness for C3: full memory `[some 4, some 7]`, both entries tied at
`last_referenced = 5`, so the stable sort selects slot 0. -/
theorem evict_lru_full_spec_witness :
    get_first_empty_index [some 4, some 7] = none ∧
    evict "lru" 0 [some 4, some 7]
      ((PageTable.empty.insert 4 ⟨false, 0, 5⟩).insert 7 ⟨false, 1, 5⟩) = some 0 ∧
    (∃ p e, ([some 4, some 7] : Memory)[0]? = some (some p) ∧
      ((PageTable.empty.insert 4 ⟨false, 0, 5⟩).insert 7 ⟨false, 1, 5⟩) p = some e ∧
      ∀ j f, (j, f) ∈ memory_to_pages [some 4, some 7]
          ((PageTable.empty.insert 4 ⟨false, 0, 5⟩).insert 7 ⟨false, 1, 5⟩) →
        e.last_referenced ≤ f.last_referenced ∧
        (f.last_referenced = e.last_referenced → 0 ≤ j)) :=
  ⟨by decide, by decide,
   evict_lru_full_spec 0 [some 4, some 7]
     ((PageTable.empty.insert 4 ⟨false, 0, 5⟩).insert 7 ⟨false, 1, 5⟩) 0
     (by decide) (by decide)⟩

end VmSim
